import Mathlib

/-!
Verification development for `graphql-cli-generate-fragments`
(source: `src/GenerateFragments.ts`).

All text is modelled as `List Char`.  The schema, as produced by
`parse` + `buildASTSchema`, is modelled by `SchemaAst`: a type map in
declaration order plus the optional root-type names.  Each function of
the source that the claims touch is translated here under its source
name; line numbers in comments refer to `src/GenerateFragments.ts`.
-/

/-- Shorthand: the character list of a string literal. -/
def S (s : String) : List Char := s.data

/-- JavaScript `Array.prototype.join(sep)`. -/
def joinStr (sep : List Char) : List (List Char) → List Char
  | [] => []
  | [x] => x
  | x :: y :: xs => x ++ sep ++ joinStr sep (y :: xs)

/-- `indentedLine` (lines 216-222): a newline followed by two spaces per level. -/
def indentedLine : Nat → List Char
  | 0 => ['\n']
  | n + 1 => indentedLine n ++ [' ', ' ']

/-- Left-to-right, non-overlapping replacement of every occurrence of `pat`
by `repl`, with explicit fuel (the scan advances at least one character per
step, so fuel `s.length` suffices).  This is the semantics of the
JavaScript `String.prototype.replace` with a global literal regex used at
lines 326-352; the model names contain only identifier characters, so the
regexes there are literal patterns. -/
def replaceAllFuel (pat repl : List Char) : Nat → List Char → List Char
  | _, [] => []
  | 0, s => s
  | fuel + 1, c :: rest =>
    if pat.isPrefixOf (c :: rest) then
      repl ++ replaceAllFuel pat repl fuel ((c :: rest).drop pat.length)
    else
      c :: replaceAllFuel pat repl fuel rest

def replaceAll (pat repl s : List Char) : List Char :=
  replaceAllFuel pat repl s.length s

/-- JavaScript `s.indexOf(pat) !== -1`: substring containment as a
boolean (used on the tier label at line 326). -/
def containsSub (pat : List Char) : List Char → Bool
  | [] => pat.isEmpty
  | c :: rest => pat.isPrefixOf (c :: rest) || containsSub pat rest

/-- JavaScript `f.split(' ')[0]`: the leading token of a printed field
(line 324). -/
def headToken (f : List Char) : List Char := f.takeWhile (fun c => c ≠ ' ')

/-- JavaScript `String.prototype.split(c)` (used on the output path at
lines 198 and 202). -/
def splitOnChar (c : Char) : List Char → List (List Char)
  | [] => [[]]
  | x :: xs =>
    let r := splitOnChar c xs
    if x = c then [] :: r
    else
      match r with
      | [] => [[x]]
      | y :: ys => (x :: y) :: ys

/-! ## Data model -/

/-- A (possibly wrapped) type reference, as both the runtime type and the
`astNode.type` TypeNode view: `buildASTSchema` keeps the two in lockstep,
so one tree serves for both. -/
inductive TypeExpr
  | named (n : List Char)
  | list (t : TypeExpr)
  | nonNull (t : TypeExpr)
  deriving DecidableEq

/-- The kind of a named type in the schema's type map; determines the class
(`constructor.name`) of its runtime instance. -/
inductive TypeKind
  | scalar
  | enum
  | object
  | iface
  | union
  | inputObject
  deriving DecidableEq

def kindCtorName : TypeKind → List Char
  | .scalar => S "GraphQLScalarType"
  | .enum => S "GraphQLEnumType"
  | .object => S "GraphQLObjectType"
  | .iface => S "GraphQLInterfaceType"
  | .union => S "GraphQLUnionType"
  | .inputObject => S "GraphQLInputObjectType"

structure FieldDef where
  name : List Char
  type : TypeExpr
  deriving DecidableEq

structure TypeDef where
  name : List Char
  kind : TypeKind
  fields : List FieldDef
  deriving DecidableEq

/-- The parsed schema (`buildASTSchema` result): type map in declaration
order and the distinguished root-type names (absent when the schema does
not define them: `getQueryType()` etc. then return `undefined`). -/
structure SchemaAst where
  types : List TypeDef
  queryName : Option (List Char)
  mutationName : Option (List Char)
  subscriptionName : Option (List Char)
  deriving DecidableEq

structure Fragment where
  name : List Char
  fragment : List Char
  deriving DecidableEq

/-- `ast.getType(n)`. -/
def getType (ast : SchemaAst) (n : List Char) : Option TypeDef :=
  ast.types.find? (fun t => t.name == n)

/-- `ast.getType(n).constructor.name`: throws a `TypeError` when the lookup
returns `undefined`. -/
def getCtorNameE (ast : SchemaAst) (n : List Char) : Except (List Char) (List Char) :=
  match getType ast n with
  | some t => .ok (kindCtorName t.kind)
  | none => .error (S "TypeError: Cannot read properties of undefined (reading constructor)")

/-- `this.fragmentType` (lines 224-228). -/
def fragmentTypeDefault : List Char := S ""

def fragmentTypeNoRelations : List Char := S "NoNesting"

def fragmentTypeDeep : List Char := S "DeepNesting"

/-! ## printField (lines 443-515)

The source reassigns the local `field` from the runtime `GraphQLField` to
AST `TypeNode`s while unwrapping.  `PFNode` records which of the two the
local currently holds, which is what the later `typeName` extraction
(lines 495-497) dispatches on. -/

inductive PFNode
  | runtimeField (texpr : TypeExpr)
  | astNode (t : TypeExpr)
  deriving DecidableEq

/-- `field.type.constructor.name` (line 450): the class of the runtime type
instance.  A named type's instance is the one registered in the type map
(for a runtime field it always exists; an unknown name cannot have been
built).  The `constructorName === "Object"` fallback at lines 452-456 can
only fire for plain AST objects, which a `GraphQLField`'s type never is,
so it is dead code for every call site and is not modelled. -/
def runtimeCtorName (ast : SchemaAst) : TypeExpr → Except (List Char) (List Char)
  | .named n => getCtorNameE ast n
  | .list _ => .ok (S "GraphQLList")
  | .nonNull _ => .ok (S "GraphQLNonNull")

/-- `field.kind === "NonNullType"` (line 469) on the current local. -/
def nodeIsNonNullType : PFNode → Bool
  | .astNode (.nonNull _) => true
  | _ => false

/-- Lines 458-467: the `GraphQLList` unwrap applied to `texpr = list inner`. -/
def resolveListBranch (ast : SchemaAst) (inner : TypeExpr) :
    Except (List Char) (Option (List Char) × PFNode) :=
  -- lines 459-461: field = astNode.type.type.type || astNode.type.type
  let n1 : TypeExpr :=
    match inner with
    | .nonNull x => x
    | .list x => x
    | .named _ => inner
  -- line 466: ast.getType(field.name.value).constructor.name
  match n1 with
  | .named nm =>
    match getCtorNameE ast nm with
    | .error e => .error e
    | .ok k => .ok (some k, PFNode.astNode n1)
  | _ =>
    -- `field.name` is undefined on a wrapper TypeNode: `.value` throws
    .error (S "TypeError: Cannot read properties of undefined (reading value)")

/-- Lines 469-482: the `GraphQLNonNull` unwrap applied to
`texpr = nonNull inner`. -/
def resolveNonNullBranch (ast : SchemaAst) (inner : TypeExpr) :
    Except (List Char) (Option (List Char) × PFNode) :=
  -- line 470: field = field.astNode.type (the NonNullType TypeNode)
  match inner with
  | .named nm =>
    -- lines 471-474: field.type is a NamedType, look its kind up
    match getCtorNameE ast nm with
    | .error e => .error e
    | .ok k => .ok (some k, PFNode.astNode (.nonNull inner))
  | .list x =>
    -- constructorName is null: lines 476-481 descend once more
    match x with
    | .named nm2 =>
      match getCtorNameE ast nm2 with
      | .error e => .error e
      | .ok k => .ok (some k, PFNode.astNode inner)
    | _ => .ok (none, PFNode.astNode inner)
  | .nonNull x =>
    match x with
    | .named nm2 =>
      match getCtorNameE ast nm2 with
      | .error e => .error e
      | .ok k => .ok (some k, PFNode.astNode inner)
    | _ => .ok (none, PFNode.astNode inner)

def resolveCtor (ast : SchemaAst) (texpr : TypeExpr) :
    Except (List Char) (Option (List Char) × PFNode) :=
  -- line 450
  match runtimeCtorName ast texpr with
  | .error e => .error e
  | .ok c0 =>
    -- lines 458-467: `GraphQLList` branch (fires exactly when texpr is a list)
    let s1 : Except (List Char) (Option (List Char) × PFNode) :=
      match texpr with
      | .list inner => resolveListBranch ast inner
      | _ => .ok (some c0, PFNode.runtimeField texpr)
    match s1 with
    | .error e => .error e
    | .ok s1v =>
      -- lines 469-482: `GraphQLNonNull` branch
      if s1v.1 = some (S "GraphQLNonNull") ∨ nodeIsNonNullType s1v.2 then
        match texpr with
        | .nonNull inner => resolveNonNullBranch ast inner
        | _ => .error (S "unreachable: GraphQLNonNull constructor on a non-nonNull type")
      else
        .ok s1v

/-- Lines 493-497: `typeName` extraction from the current `field` local.
For a runtime field, `field.name` is the field-name string whose `.value`
is undefined, so the fallback reads `field.type.name`; for AST nodes the
`name` is a `Name` node when present. -/
def nodeTypeName : PFNode → Except (List Char) (List Char)
  | .runtimeField (.named n) => .ok n
  | .runtimeField _ => .error (S "TypeError: Cannot read properties of undefined (reading value)")
  | .astNode (.named n) => .ok n
  | .astNode (.list (.named n)) => .ok n
  | .astNode (.nonNull (.named n)) => .ok n
  | .astNode _ => .error (S "TypeError: Cannot read properties of undefined (reading value)")

/-- Lines 484-515 of `printField`: the branch on the resolved constructor
name. -/
def printFieldPost (fieldName : List Char) (fragmentType : List Char) (indent : Nat)
    (rc : Option (List Char) × PFNode) : Except (List Char) (Option (List Char)) :=
  -- lines 484-488
  if rc.1 = some (S "GraphQLScalarType") ∨ rc.1 = some (S "GraphQLEnumType") then
    .ok (some fieldName)
  else if rc.1 = some (S "GraphQLObjectType") then
    -- lines 491-512
    if fragmentType = fragmentTypeNoRelations then
      .ok none
    else
      match nodeTypeName rc.2 with
      | .error e => .error e
      | .ok typeName =>
        .ok (some (fieldName ++ S " \x7b" ++ indentedLine (indent + 1) ++ S "..." ++
          (if fragmentType = fragmentTypeDeep then typeName ++ fragmentTypeDeep
           else if fragmentType = fragmentTypeDefault then typeName ++ fragmentTypeNoRelations
           else typeName ++ fragmentTypeDefault) ++
          indentedLine indent ++ S "\x7d"))
  else
    .ok none

/-- `printField` (lines 443-515).  Returns `some text` for a printed field
and `none` for an omitted one (the source returns `null`). -/
def printField (fieldName : List Char) (texpr : TypeExpr) (ast : SchemaAst)
    (fragmentType : List Char) (indent : Nat) :
    Except (List Char) (Option (List Char)) :=
  match resolveCtor ast texpr with
  | .error e => .error e
  | .ok rc => printFieldPost fieldName fragmentType indent rc

/-! ## Fragment builders (lines 230-441) -/

/-- The body of the `Object.keys(fields).map(...)` in `generateFragments`
(lines 433-436): print each field left to right, propagating a thrown
error. -/
def printFieldsE (ast : SchemaAst) (fragmentType : List Char) :
    List FieldDef → Except (List Char) (List (Option (List Char)))
  | [] => .ok []
  | f :: fs =>
    match printField f.name f.type ast fragmentType 1 with
    | .error e => .error e
    | .ok r =>
      match printFieldsE ast fragmentType fs with
      | .error e => .error e
      | .ok rs => .ok (r :: rs)

/-- `generateFragments` (lines 431-441): print the type's fields in
declaration order and drop the omitted (`null`) ones. -/
def generateFragments (t : TypeDef) (ast : SchemaAst) (fragmentType : List Char) :
    Except (List Char) (List (List Char)) :=
  match printFieldsE ast fragmentType t.fields with
  | .error e => .error e
  | .ok printed => .ok (printed.filterMap id)

/-- Lines 234-262: the `typeNames` computation.  The query-root name is
dereferenced inside a `filter` callback, so it is only evaluated when at
least one non-introspection object type reaches that filter; the mutation
and subscription roots are guarded by a presence check.  The trailing
`.sort` compares `constructor.name` of two object types, which are always
equal, so it never meaningfully reorders; it is modelled as the
identity. -/
def visibleObjectNames (ast : SchemaAst) : List (List Char) :=
  ((ast.types.filter (fun t => t.kind = TypeKind.object)).map (fun t => t.name)).filter
    (fun n => !(S "__").isPrefixOf n)

def typeNamesOf (ast : SchemaAst) : Except (List Char) (List (List Char)) :=
  match visibleObjectNames ast, ast.queryName with
  | [], _ => .ok []
  | _ :: _, none => .error (S "TypeError: Cannot read properties of undefined (reading name)")
  | l, some q =>
    .ok (((l.filter (fun n => n ≠ q)).filter
        (fun n => match ast.mutationName with | some m => n ≠ m | none => true)).filter
        (fun n => match ast.subscriptionName with | some s => n ≠ s | none => true))

/-- `const type: any = ast.getType(typeName)` followed by
`type.getFields()` (lines 267, 432): throws when the lookup is
undefined. -/
def resolveTypeE (ast : SchemaAst) (n : List Char) : Except (List Char) TypeDef :=
  match getType ast n with
  | some t => .ok t
  | none => .error (S "TypeError: Cannot read properties of undefined (reading getFields)")

/-- One entry of the `standardFragments` map (lines 266-279). -/
def standardFragmentFor (ast : SchemaAst) (t : TypeDef) :
    Except (List Char) (Option Fragment) :=
  match generateFragments t ast fragmentTypeDefault with
  | .error e => .error e
  | .ok fields =>
    if fields.length = 0 then .ok none
    else
      .ok (some
        { name := t.name
          fragment := S "fragment " ++ t.name ++ S " on " ++ t.name ++ S " \x7b\n  " ++
            joinStr (indentedLine 1) fields ++ S "\n\x7d\n" })

/-- One entry of the `noRelationsFragments` map (lines 281-297).  Note the
record's `name` is the bare type name; the `NoNesting` suffix appears only
in the fragment text. -/
def noRelationsFragmentFor (ast : SchemaAst) (t : TypeDef) :
    Except (List Char) (Option Fragment) :=
  match generateFragments t ast fragmentTypeNoRelations with
  | .error e => .error e
  | .ok fields =>
    if fields.length = 0 then .ok none
    else
      .ok (some
        { name := t.name
          fragment := S "fragment " ++ t.name ++ fragmentTypeNoRelations ++ S " on " ++ t.name ++
            S " \x7b\n  " ++ joinStr (indentedLine 1) fields ++ S "\n\x7d\n" })

/-- The tier configuration loaded from the external JSON file: type name to
ordered tier entries, each a tier label with its field allow-list.
Association lists keep JavaScript's object-key insertion order. -/
abbrev ModelConfig := List (List Char × List (List Char))

abbrev ModelConfigs := List (List Char × ModelConfig)

def lookupCfg (cfg : ModelConfigs) (n : List Char) : Option ModelConfig :=
  (cfg.find? (fun e => e.1 == n)).map (fun e => e.2)

/-- Lines 326-338: the spread rewriting for a tier fragment.  The
replacement suffix is `AdminListing` when the tier label contains the
substring `Admin` (`suffix.indexOf('Admin') !== -1`), else
`PublicListing`; afterwards every remaining `DeepNesting` becomes
`Full`. -/
def deepRewrite (modelNames : List (List Char)) (suffix : List Char) (body : List Char) :
    List Char :=
  let target := if containsSub (S "Admin") suffix then S "AdminListing" else S "PublicListing"
  replaceAll fragmentTypeDeep (S "Full")
    (modelNames.foldl (fun acc m =>
      replaceAll (S "..." ++ m ++ fragmentTypeDeep) (S "..." ++ m ++ target) acc) body)

/-- Lines 308-342: the fragment built for one tier entry. -/
def tierFragment (modelNames : List (List Char)) (typeName : List Char)
    (fields : List (List Char)) (p : List Char × List (List Char)) : Fragment :=
  let suffix := p.1
  let allowlist := p.2
  let spreadFragments :=
    (if suffix = S "Admin" then [S "..." ++ typeName ++ S "AdminListing"] else []) ++
    (if suffix = S "AdminListing" then [S "..." ++ typeName ++ S "PublicListing"] else []) ++
    (if suffix = S "Public" then [S "..." ++ typeName ++ S "PublicListing"] else [])
  -- lines 320-322: the pushed empty element yields one extra indented line
  let spreadFragments :=
    if spreadFragments.length ≠ 0 then spreadFragments ++ [[]] else spreadFragments
  let body := S "fragment " ++ typeName ++ suffix ++ S " on " ++ typeName ++ S " \x7b\n  " ++
    joinStr (indentedLine 1) spreadFragments ++
    joinStr (indentedLine 1)
      (fields.filter (fun f => decide (headToken f ∈ allowlist))) ++
    S "\n\x7d"
  { name := typeName ++ suffix, fragment := deepRewrite modelNames suffix body }

/-- Lines 344-357: the ungated `Full` fragment for a type without a
tier-config entry. -/
def fullFragment (modelNames : List (List Char)) (typeName : List Char)
    (fields : List (List Char)) : Fragment :=
  let body := S "fragment " ++ typeName ++ S "Full on " ++ typeName ++ S " \x7b\n  " ++
    joinStr (indentedLine 1) fields ++ S "\n\x7d"
  let body := replaceAll fragmentTypeDeep (S "Full")
    (modelNames.foldl (fun acc m =>
      replaceAll (S "..." ++ m ++ fragmentTypeDeep) (S "..." ++ m ++ S "PublicListing") acc)
      body)
  { name := typeName ++ S "Full", fragment := body }

/-- One entry of the `deepFragments` map (lines 299-358): `none` models the
`null` that `flatten` later skips. -/
def deepFragmentsFor (cfg : ModelConfigs) (modelNames : List (List Char)) (ast : SchemaAst)
    (t : TypeDef) : Except (List Char) (Option (List Fragment)) :=
  match generateFragments t ast fragmentTypeDeep with
  | .error e => .error e
  | .ok fields =>
    if fields.length = 0 then .ok none
    else
      match lookupCfg cfg t.name with
      | some entry =>
        -- lines 307-343
        .ok (some (entry.map (tierFragment modelNames t.name fields)))
      | none =>
        -- lines 344-357
        .ok (some [fullFragment modelNames t.name fields])

/-- The `standardFragments` list (lines 266-279): map then drop `null`s. -/
def standardFragmentsOf (ast : SchemaAst) : List (List Char) → Except (List Char) (List Fragment)
  | [] => .ok []
  | n :: rest =>
    match resolveTypeE ast n with
    | .error e => .error e
    | .ok t =>
      match standardFragmentFor ast t with
      | .error e => .error e
      | .ok fr =>
        match standardFragmentsOf ast rest with
        | .error e => .error e
        | .ok others =>
          match fr with
          | none => .ok others
          | some f => .ok (f :: others)

/-- The `noRelationsFragments` list (lines 281-297). -/
def noRelationsFragmentsOf (ast : SchemaAst) :
    List (List Char) → Except (List Char) (List Fragment)
  | [] => .ok []
  | n :: rest =>
    match resolveTypeE ast n with
    | .error e => .error e
    | .ok t =>
      match noRelationsFragmentFor ast t with
      | .error e => .error e
      | .ok fr =>
        match noRelationsFragmentsOf ast rest with
        | .error e => .error e
        | .ok others =>
          match fr with
          | none => .ok others
          | some f => .ok (f :: others)

/-- The flattened `deepFragments` list (lines 299-358 with `flatten`). -/
def deepFragmentsOf (cfg : ModelConfigs) (modelNames : List (List Char)) (ast : SchemaAst) :
    List (List Char) → Except (List Char) (List Fragment)
  | [] => .ok []
  | n :: rest =>
    match resolveTypeE ast n with
    | .error e => .error e
    | .ok t =>
      match deepFragmentsFor cfg modelNames ast t with
      | .error e => .error e
      | .ok fr =>
        match deepFragmentsOf cfg modelNames ast rest with
        | .error e => .error e
        | .ok others =>
          match fr with
          | none => .ok others
          | some fs => .ok (fs ++ others)

/-- `Object.keys(modelConfigs)` (line 298): throws a `TypeError` when
`modelConfigs` is `undefined`. -/
def objectKeysE (modelConfigs : Option ModelConfigs) : Except (List Char) (List (List Char)) :=
  match modelConfigs with
  | none => .error (S "TypeError: Cannot convert undefined or null to object")
  | some cfg => .ok (cfg.map (fun e => e.1))

/-- Lines 234-358 of `makeFragments`: everything before the generator
dispatch, in source evaluation order. -/
def makeParts (ast : SchemaAst) (modelConfigs : Option ModelConfigs) :
    Except (List Char) (List Fragment × List Fragment × List Fragment) :=
  match typeNamesOf ast with
  | .error e => .error e
  | .ok typeNames =>
    match standardFragmentsOf ast typeNames with
    | .error e => .error e
    | .ok standardFragments =>
      match noRelationsFragmentsOf ast typeNames with
      | .error e => .error e
      | .ok noRelationsFragments =>
        match objectKeysE modelConfigs with
        | .error e => .error e
        | .ok modelNames =>
          match deepFragmentsOf (modelConfigs.getD []) modelNames ast typeNames with
          | .error e => .error e
          | .ok deepFragments =>
            .ok (standardFragments, noRelationsFragments, deepFragments)

/-- Lines 361-388: the `js` generator output. -/
def renderJsOutput (standard noRel deep : List Fragment) : List Fragment :=
  [{ name := S "*"
     fragment :=
       S "// THIS FILE HAS BEEN AUTO-GENERATED BY \"graphql-cli-generate-fragments\"\n// DO NOT EDIT THIS FILE DIRECTLY\n" ++
       (standard.map (fun f =>
         S "\nexport const " ++ f.name ++ S "Fragment = `" ++ f.fragment ++ S "`\n")).flatten ++
       S "\n" ++
       (noRel.map (fun f =>
         S "\nexport const " ++ f.name ++ fragmentTypeNoRelations ++ S "Fragment = `" ++
           f.fragment ++ S "`\n")).flatten ++
       S "\n" ++
       (deep.map (fun f =>
         S "\nexport const " ++ f.name ++ fragmentTypeDeep ++ S "Fragment = `" ++
           f.fragment ++ S "`\n")).flatten ++
       S "\n" }]

/-- Lines 392-428: the single-document GraphQL output (the final `return`,
reached for every generator value other than `js` and
`multi-file-graphql`). -/
def renderGraphqlDocOutput (standard noRel deep : List Fragment) : List Fragment :=
  [{ name := S "*"
     fragment :=
       S "# THIS FILE HAS BEEN AUTO-GENERATED BY \"graphql-cli-generate-fragments\"\n# DO NOT EDIT THIS FILE DIRECTLY\n\n# Standard Fragments\n# Nested fragments will spread one layer deep\n\n" ++
       (standard.map (fun f => S "\n" ++ f.fragment)).flatten ++
       S "\n\n# No Relational objects\n# No nested fragments\n\n" ++
       (noRel.map (fun f => S "\n" ++ f.fragment)).flatten ++
       S "\n\n# Deeply nested Fragments\n# Will include n nested fragments\n# If there is a recursive relation you will receive a\n# \"Cannot spread fragment within itself\" error when using\n\n" ++
       (deep.map (fun f => S "\n" ++ f.fragment)).flatten ++
       S "\n" }]

/-- Lines 361-428: generator dispatch. -/
def renderOutput (generator : List Char)
    (parts : List Fragment × List Fragment × List Fragment) : List Fragment :=
  if generator = S "js" then renderJsOutput parts.1 parts.2.1 parts.2.2
  else if generator = S "multi-file-graphql" then parts.2.2
  else renderGraphqlDocOutput parts.1 parts.2.1 parts.2.2

/-- `makeFragments` (lines 230-429), from the built schema on. -/
def makeFragments (ast : SchemaAst) (generator : List Char)
    (modelConfigs : Option ModelConfigs) : Except (List Char) (List Fragment) :=
  match makeParts ast modelConfigs with
  | .error e => .error e
  | .ok parts => .ok (renderOutput generator parts)

/-- The names under which fragment definitions are emitted in one run: the
record name for standard fragments (also the `fragment <name> on ...`
header), the record name plus `NoNesting` for no-relations fragments (the
header at lines 290-292), and the record name (= type name plus `Full` or
a tier label) for deep fragments. -/
def allFragmentDefNames (ast : SchemaAst) (modelConfigs : Option ModelConfigs) :
    Except (List Char) (List (List Char)) :=
  match makeParts ast modelConfigs with
  | .error e => .error e
  | .ok parts =>
    .ok (parts.1.map (fun f => f.name) ++
      parts.2.1.map (fun f => f.name ++ fragmentTypeNoRelations) ++
      parts.2.2.map (fun f => f.name))

/-- A file write performed by `processFragments`. -/
structure WriteOp where
  path : List Char
  contents : List Char
  deriving DecidableEq

/-- Lines 197-205 of `processFragments`: decide between one file per
fragment and a single output file, and perform the writes.  On an empty
fragment list the `else` branch evaluates `fragments[0].fragment`, i.e.
`.fragment` on `undefined`, which throws. -/
def processFragmentsWrite (outputPath extension : List Char) (fragments : List Fragment) :
    Except (List Char) (List WriteOp) :=
  match fragments with
  | [] => .error (S "TypeError: Cannot read properties of undefined (reading fragment)")
  | f :: _ =>
    if f.name ≠ S "*" then
      let basePath := joinStr (S "/") ((splitOnChar '/' outputPath).dropLast)
      .ok (fragments.map (fun fr =>
        { path := basePath ++ S "/" ++ fr.name ++ S "." ++ extension
          contents := fr.fragment }))
    else
      .ok [{ path := outputPath, contents := f.fragment }]

/-! ## Specification-side definitions (for refinement claims)

These two definitions follow the words of the specification (§4.4, claim
C3), to be compared with the builders above which are translated from the
source. -/

/-- Modelled from the spec: the leading sibling spread of a tier fragment —
`Admin` prepends a spread of `<TypeName>AdminListing`, `AdminListing` and
`Public` prepend a spread of `<TypeName>PublicListing`, any other tier
label prepends nothing. -/
def leadingSpreadSpec (typeName suffix : List Char) : List (List Char) :=
  if suffix = S "Admin" then [S "..." ++ typeName ++ S "AdminListing"]
  else if suffix = S "AdminListing" ∨ suffix = S "Public" then
    [S "..." ++ typeName ++ S "PublicListing"]
  else []

/-- Modelled from the spec: the assembled (pre-rewrite) body of a tier
fragment — the header, the leading sibling spread when there is one, then
the chosen deep fields, one per indented line. -/
def tierBodySpec (typeName suffix : List Char) (chosen : List (List Char)) : List Char :=
  S "fragment " ++ typeName ++ suffix ++ S " on " ++ typeName ++ S " \x7b\n  " ++
  (match leadingSpreadSpec typeName suffix with
   | [] => joinStr (indentedLine 1) chosen
   | sps => joinStr (indentedLine 1) sps ++ indentedLine 1 ++ joinStr (indentedLine 1) chosen) ++
  S "\n\x7d"

/-- The common part of the three fragment bodies of an all-scalar/enum
type: everything after the fragment name in the header. -/
def scalarCore (t : TypeDef) : List Char :=
  S " on " ++ t.name ++ S " \x7b\n  " ++
    joinStr (indentedLine 1) (t.fields.map (fun f => f.name)) ++ S "\n\x7d"


/-! ## Example schemas used by witnesses and counterexamples -/

/-- A schema with a `Comment` object type (for the field classifier). -/
def astComment : SchemaAst :=
  ⟨[⟨S "Comment", .object, [⟨S "id", .nonNull (.named (S "ID"))⟩]⟩, ⟨S "ID", .scalar, []⟩],
   none, none, none⟩

/-- The spec's running example: `Query`, `Post { id title author }`, `User`. -/
def astPW : SchemaAst :=
  ⟨[⟨S "ID", .scalar, []⟩, ⟨S "String", .scalar, []⟩,
    ⟨S "Query", .object, [⟨S "post", .named (S "Post")⟩]⟩,
    ⟨S "Post", .object,
      [⟨S "id", .nonNull (.named (S "ID"))⟩,
       ⟨S "title", .nonNull (.named (S "String"))⟩,
       ⟨S "author", .nonNull (.named (S "User"))⟩]⟩,
    ⟨S "User", .object, [⟨S "id", .nonNull (.named (S "ID"))⟩]⟩],
   some (S "Query"), none, none⟩

def postT : TypeDef :=
  ⟨S "Post", .object,
    [⟨S "id", .nonNull (.named (S "ID"))⟩,
     ⟨S "title", .nonNull (.named (S "String"))⟩,
     ⟨S "author", .nonNull (.named (S "User"))⟩]⟩

/-- The spec's §8 tier configuration for `Post`. -/
def cfgPW : ModelConfigs :=
  [(S "Post", [(S "PublicListing", [S "id", S "title"]),
               (S "Public", [S "id", S "title", S "author"])])]

def entryPW : ModelConfig :=
  [(S "PublicListing", [S "id", S "title"]),
   (S "Public", [S "id", S "title", S "author"])]

def fieldsPW : List (List Char) :=
  [S "id", S "title", S "author \x7b\n    ...UserDeepNesting\n  \x7d"]

/-- A schema whose only non-introspection object type has a single
interface-typed field, so every mode prints zero fields. -/
def astIface : SchemaAst :=
  ⟨[⟨S "Iface", .iface, []⟩, ⟨S "Holder", .object, [⟨S "x", .named (S "Iface")⟩]⟩],
   none, none, none⟩

def holderT : TypeDef := ⟨S "Holder", .object, [⟨S "x", .named (S "Iface")⟩]⟩

/-- A schema with no query root and no object types at all. -/
def astEnumOnly : SchemaAst := ⟨[⟨S "Color", .enum, []⟩], none, none, none⟩

/-- A schema with no query root but with an object type. -/
def astNoQuery : SchemaAst :=
  ⟨[⟨S "ID", .scalar, []⟩, ⟨S "Post", .object, [⟨S "id", .nonNull (.named (S "ID"))⟩]⟩],
   none, none, none⟩

/-- A schema whose only object type is the query root, so no fragments are
generated at all. -/
def astQueryOnly : SchemaAst :=
  ⟨[⟨S "Query", .object, [⟨S "ok", .named (S "Boolean")⟩]⟩, ⟨S "Boolean", .scalar, []⟩],
   some (S "Query"), none, none⟩

/-- A schema with a single all-scalar object type `Post`. -/
def astP5 : SchemaAst :=
  ⟨[⟨S "ID", .scalar, []⟩, ⟨S "Post", .object, [⟨S "id", .named (S "ID")⟩]⟩],
   none, none, none⟩

def postT5 : TypeDef := ⟨S "Post", .object, [⟨S "id", .named (S "ID")⟩]⟩

/-- A schema containing both `Post` and `PostFull` object types. -/
def astC8 : SchemaAst :=
  ⟨[⟨S "ID", .scalar, []⟩,
    ⟨S "Query", .object, [⟨S "x", .named (S "ID")⟩]⟩,
    ⟨S "Post", .object, [⟨S "id", .nonNull (.named (S "ID"))⟩]⟩,
    ⟨S "PostFull", .object, [⟨S "id", .nonNull (.named (S "ID"))⟩]⟩],
   some (S "Query"), none, none⟩

def fragC4 : Fragment :=
  ⟨S "PostFull",
   S "fragment PostFull on Post \x7b\n  id\n  title\n  author \x7b\n    ...UserPublicListing\n  \x7d\n\x7d"⟩

/-! ## String lemmas

Occurrence (infix) reasoning for the rewrite passes: where an occurrence
of a pattern can sit inside an append, and that `replaceAll` leaves no
occurrence of its pattern when pattern and replacement share no
character. -/

theorem mem_concat_of_suffix_ne_nil {p1 a1 : List Char} {c : Char}
    (h : p1 <:+ a1 ++ [c]) (hne : p1 ≠ []) : c ∈ p1 := by
  obtain ⟨s, hs⟩ := h
  rcases List.eq_nil_or_concat p1 with rfl | ⟨q, d, rfl⟩
  · exact absurd rfl hne
  · have h2 : some d = some c := by
      have h3 := congrArg List.getLast? hs
      rwa [List.concat_eq_append, ← List.append_assoc, List.getLast?_concat,
        List.getLast?_concat] at h3
    rw [List.concat_eq_append]
    exact (Option.some_inj.mp h2) ▸ List.mem_append_right q (List.mem_singleton_self d)

/-- Any occurrence of `p` inside `a ++ b` lies in `a`, lies in `b`, or
straddles the boundary with a nonempty part on each side. -/
theorem infix_append_split {p a b : List Char} (h : p <:+: a ++ b) :
    p <:+: a ∨ p <:+: b ∨
      ∃ p1 p2, p = p1 ++ p2 ∧ p1 ≠ [] ∧ p2 ≠ [] ∧ p1 <:+ a ∧ p2 <+: b := by
  induction a with
  | nil => exact Or.inr (Or.inl (by simpa using h))
  | cons x a1 ih =>
    rw [List.cons_append] at h
    rcases List.infix_cons_iff.mp h with hpre | htail
    · rw [← List.cons_append] at hpre
      rcases List.prefix_or_prefix_of_prefix hpre (List.prefix_append (x :: a1) b) with h1 | h2
      · exact Or.inl h1.isInfix
      · obtain ⟨p2, rfl⟩ := h2
        rcases eq_or_ne p2 [] with rfl | hne
        · exact Or.inl (by simp)
        · refine Or.inr (Or.inr ⟨x :: a1, p2, rfl, by simp, hne, List.suffix_rfl, ?_⟩)
          exact (List.prefix_append_right_inj (x :: a1)).mp hpre
    · rcases ih htail with h1 | h2 | ⟨p1, p2, rfl, h3, h4, h5, h6⟩
      · exact Or.inl (List.infix_cons h1)
      · exact Or.inr (Or.inl h2)
      · exact Or.inr (Or.inr ⟨p1, p2, rfl, h3, h4, h5.trans (List.suffix_cons x a1), h6⟩)

/-- If no character of `p` occurs in `a`, an occurrence of `p` in `a ++ b`
is an occurrence in `b`. -/
theorem infix_append_right_of_disj {p a b : List Char} (hd : ∀ c ∈ p, c ∉ a)
    (h : p <:+: a ++ b) : p <:+: b := by
  rcases infix_append_split h with h1 | h2 | ⟨p1, p2, rfl, hne, _, h5, _⟩
  · rcases p with _ | ⟨c, p'⟩
    · exact List.nil_infix
    · exact absurd (h1.subset (List.mem_cons_self c p')) (hd c (List.mem_cons_self c p'))
  · exact h2
  · obtain ⟨c, hc⟩ := List.exists_mem_of_ne_nil p1 hne
    exact absurd (h5.subset hc) (hd c (List.mem_append_left p2 hc))

/-- An occurrence of `p` cannot straddle a character that `p` does not
contain. -/
theorem infix_append_cons_split {p a b : List Char} {c : Char} (hc : c ∉ p)
    (h : p <:+: a ++ c :: b) : p <:+: a ∨ p <:+: b := by
  rcases infix_append_split h with h1 | h2 | ⟨p1, p2, heq, _, hne2, _, h6⟩
  · exact Or.inl h1
  · rcases List.infix_cons_iff.mp h2 with hpre | htail
    · rcases p with _ | ⟨d, p'⟩
      · exact Or.inr List.nil_infix
      · obtain ⟨rfl, _⟩ := List.cons_prefix_cons.mp hpre
        exact absurd (List.mem_cons_self d p') hc
    · exact Or.inr htail
  · rcases p2 with _ | ⟨d, p2'⟩
    · exact absurd rfl hne2
    · obtain ⟨rfl, _⟩ := List.cons_prefix_cons.mp h6
      exact absurd (heq ▸ List.mem_append_right p1 (List.mem_cons_self d p2')) hc

theorem notInfix_append_endChar {p b : List Char} {c : Char} (a1 : List Char) {a : List Char}
    (ha : a = a1 ++ [c]) (hc : c ∉ p)
    (h1 : ¬ p <:+: a) (h2 : ¬ p <:+: b) : ¬ p <:+: a ++ b := by
  intro h
  rcases infix_append_split h with hx | hx | ⟨p1, p2, heq, hne1, _, h5, _⟩
  · exact h1 hx
  · exact h2 hx
  · rw [ha] at h5
    exact hc (heq ▸ List.mem_append_left p2 (mem_concat_of_suffix_ne_nil h5 hne1))

theorem notInfix_append_startChar {p a : List Char} {c : Char} (b1 : List Char) {b : List Char}
    (hb : b = c :: b1) (hc : c ∉ p)
    (h1 : ¬ p <:+: a) (h2 : ¬ p <:+: b) : ¬ p <:+: a ++ b := by
  intro h
  subst hb
  rcases infix_append_cons_split hc h with hx | hx
  · exact h1 hx
  · exact h2 (List.infix_cons hx)

/-- If `p` occurs in no element of `L` nor in the separator, and cannot
straddle the separator's first or last character, it does not occur in the
join. -/
theorem notInfix_joinStr (p sep : List Char) (c0 c1 : Char) (sep1 sep2 : List Char)
    (hs0 : sep = c0 :: sep1) (hs1 : sep = sep2 ++ [c1])
    (hc0 : c0 ∉ p) (hc1 : c1 ∉ p) (hsep : ¬ p <:+: sep) (hp : p ≠ [])
    (L : List (List Char)) : (∀ x ∈ L, ¬ p <:+: x) → ¬ p <:+: joinStr sep L := by
  induction L with
  | nil => exact fun _ h => hp (List.eq_nil_of_infix_nil h)
  | cons x xs ih =>
    intro hall
    rcases xs with _ | ⟨y, ys⟩
    · exact hall x (by simp)
    · have hrest : ¬ p <:+: joinStr sep (y :: ys) :=
        ih (fun z hz => hall z (List.mem_cons_of_mem x hz))
      have hsr : ¬ p <:+: sep ++ joinStr sep (y :: ys) :=
        notInfix_append_endChar sep2 hs1 hc1 hsep hrest
      have hx : ¬ p <:+: x ++ (sep ++ joinStr sep (y :: ys)) :=
        notInfix_append_startChar (sep1 ++ joinStr sep (y :: ys))
          (by rw [hs0]; rfl) hc0 (hall x (by simp)) hsr
      simpa [joinStr] using hx

theorem replaceAllFuel_nil (pat repl : List Char) (fuel : Nat) :
    replaceAllFuel pat repl fuel [] = [] := by cases fuel <;> rfl

theorem replaceAllFuel_eq_self {pat repl : List Char} :
    ∀ (fuel : Nat) (s : List Char), s.length ≤ fuel → ¬ pat <:+: s →
      replaceAllFuel pat repl fuel s = s := by
  intro fuel
  induction fuel with
  | zero =>
    intro s hs _
    cases s with
    | nil => rfl
    | cons c rest => simp at hs
  | succ n ih =>
    intro s hs h
    cases s with
    | nil => rfl
    | cons c rest =>
      rw [replaceAllFuel, if_neg, ih rest (by simpa using Nat.le_of_succ_le_succ hs)
        (fun hx => h (List.infix_cons hx))]
      intro hpre
      exact h (List.isPrefixOf_iff_prefix.mp hpre).isInfix

theorem replaceAll_eq_self {pat repl s : List Char} (h : ¬ pat <:+: s) :
    replaceAll pat repl s = s :=
  replaceAllFuel_eq_self s.length s le_rfl h

/-- If a nonempty word sharing no character with the (nonempty) replacement
is a prefix of a `replaceAllFuel` output, it was a prefix of the input. -/
theorem pfx_of_pfx_replaceAllFuel {pat repl : List Char} (hr : repl ≠ []) :
    ∀ (fuel : Nat) (s : List Char), s.length ≤ fuel →
      ∀ p', p' ≠ [] → (∀ c ∈ p', c ∉ repl) →
        p' <+: replaceAllFuel pat repl fuel s → p' <+: s := by
  intro fuel
  induction fuel with
  | zero =>
    intro s hs p' hne _ h
    cases s with
    | nil => simpa [replaceAllFuel_nil] using h
    | cons c rest => simp at hs
  | succ n ih =>
    intro s hs p' hne hd h
    cases s with
    | nil => simpa [replaceAllFuel_nil] using h
    | cons c rest =>
      rw [replaceAllFuel] at h
      by_cases hpre : pat.isPrefixOf (c :: rest) = true
      · rw [if_pos hpre] at h
        rcases repl with _ | ⟨r, repl'⟩
        · exact absurd rfl hr
        · rcases p' with _ | ⟨d, p''⟩
          · exact absurd rfl hne
          · obtain ⟨rfl, _⟩ := List.cons_prefix_cons.mp h
            exact absurd (List.mem_cons_self d repl') (hd d (List.mem_cons_self d p''))
      · rw [if_neg hpre] at h
        rcases p' with _ | ⟨d, p''⟩
        · exact absurd rfl hne
        · obtain ⟨rfl, htail⟩ := List.cons_prefix_cons.mp h
          rcases eq_or_ne p'' [] with rfl | hne2
          · exact List.cons_prefix_cons.mpr ⟨rfl, List.nil_prefix⟩
          · exact List.cons_prefix_cons.mpr ⟨rfl,
              ih rest (by simpa using Nat.le_of_succ_le_succ hs) p'' hne2
                (fun z hz => hd z (List.mem_cons_of_mem d hz)) htail⟩

/-- The output of `replaceAllFuel` contains no occurrence of the pattern,
provided pattern and replacement are nonempty and share no character. -/
theorem not_infix_replaceAllFuel {pat repl : List Char} (hp : pat ≠ []) (hr : repl ≠ [])
    (hd : ∀ c ∈ pat, c ∉ repl) :
    ∀ (fuel : Nat) (s : List Char), s.length ≤ fuel →
      ¬ pat <:+: replaceAllFuel pat repl fuel s := by
  intro fuel
  induction fuel with
  | zero =>
    intro s hs h
    cases s with
    | nil => exact hp (List.eq_nil_of_infix_nil (by simpa [replaceAllFuel_nil] using h))
    | cons c rest => simp at hs
  | succ n ih =>
    intro s hs h
    cases s with
    | nil => exact hp (List.eq_nil_of_infix_nil (by simpa [replaceAllFuel_nil] using h))
    | cons c rest =>
      rw [replaceAllFuel] at h
      by_cases hpre : pat.isPrefixOf (c :: rest) = true
      · rw [if_pos hpre] at h
        have hlen : 1 ≤ pat.length := by
          rcases pat with _ | _
          · exact absurd rfl hp
          · simp
        refine ih ((c :: rest).drop pat.length) ?_ (infix_append_right_of_disj hd h)
        have := hs
        simp only [List.length_drop, List.length_cons] at *
        omega
      · rw [if_neg hpre] at h
        rcases List.infix_cons_iff.mp h with hpre2 | htail
        · rcases pat with _ | ⟨d, pat'⟩
          · exact hp rfl
          · obtain ⟨rfl, htl⟩ := List.cons_prefix_cons.mp hpre2
            rcases eq_or_ne pat' [] with rfl | hne
            · exact hpre (List.isPrefixOf_iff_prefix.mpr
                (List.cons_prefix_cons.mpr ⟨rfl, List.nil_prefix⟩))
            · exact hpre (List.isPrefixOf_iff_prefix.mpr (List.cons_prefix_cons.mpr ⟨rfl,
                pfx_of_pfx_replaceAllFuel hr n rest
                  (by simpa using Nat.le_of_succ_le_succ hs) pat' hne
                  (fun z hz => hd z (List.mem_cons_of_mem d hz)) htl⟩))
        · exact ih rest (by simpa using Nat.le_of_succ_le_succ hs) htail

theorem not_infix_replaceAll {pat repl : List Char} (hp : pat ≠ []) (hr : repl ≠ [])
    (hd : ∀ c ∈ pat, c ∉ repl) (s : List Char) :
    ¬ pat <:+: replaceAll pat repl s :=
  not_infix_replaceAllFuel hp hr hd s.length s le_rfl

/-- The last rewrite pass (`.replace(/DeepNesting/g, 'Full')`, lines 331,
337, 352) leaves no `DeepNesting` occurrence: `DeepNesting` and `Full`
share no character. -/
theorem noDN_replaceAll (s : List Char) :
    ¬ fragmentTypeDeep <:+: replaceAll fragmentTypeDeep (S "Full") s :=
  not_infix_replaceAll (by decide) (by decide) (by decide) s

theorem deepRewrite_noDN (modelNames : List (List Char)) (suffix body : List Char) :
    ¬ fragmentTypeDeep <:+: deepRewrite modelNames suffix body := by
  unfold deepRewrite
  exact noDN_replaceAll _

/-- A spread-rewrite pass is the identity on a body without `DeepNesting`:
each of its patterns contains `DeepNesting`. -/
theorem foldl_replaceAll_eq_self {body : List Char} (tgt : List Char)
    (h : ¬ fragmentTypeDeep <:+: body) (mns : List (List Char)) :
    mns.foldl (fun acc m =>
      replaceAll (S "..." ++ m ++ fragmentTypeDeep) (S "..." ++ m ++ tgt) acc) body = body := by
  induction mns with
  | nil => rfl
  | cons m ms ih =>
    rw [List.foldl_cons, replaceAll_eq_self, ih]
    intro hx
    exact h (((List.suffix_append m fragmentTypeDeep).trans
      (List.suffix_append (S "...") (m ++ fragmentTypeDeep))).isInfix.trans hx)

/-! ## Builder-level lemmas -/

theorem append_cons_ne_self (a : List Char) (c : Char) (d : List Char) : a ++ (c :: d) ≠ a := by
  intro h
  have h2 := congrArg List.length h
  simp [List.length_append] at h2

/-- A field printed as its bare name was classified scalar/enum, and those
branches of `printField` (lines 484-488) do not consult the mode, so the
same bare name comes back in every mode. -/
theorem printField_bare_all_modes {fieldName : List Char} {texpr : TypeExpr} {ast : SchemaAst}
    (h : printField fieldName texpr ast fragmentTypeDefault 1 = .ok (some fieldName))
    (ft : List Char) :
    printField fieldName texpr ast ft 1 = .ok (some fieldName) := by
  cases hrc : resolveCtor ast texpr with
  | error e =>
    simp only [printField, hrc] at h
    exact absurd h (by simp)
  | ok rc =>
    simp only [printField, hrc] at h ⊢
    unfold printFieldPost at h ⊢
    by_cases h1 : rc.1 = some (S "GraphQLScalarType") ∨ rc.1 = some (S "GraphQLEnumType")
    · rw [if_pos h1]
    · rw [if_neg h1] at h ⊢
      by_cases h2 : rc.1 = some (S "GraphQLObjectType")
      · rw [if_pos h2] at h ⊢
        rw [if_neg (by decide : ¬ fragmentTypeDefault = fragmentTypeNoRelations)] at h
        exfalso
        cases htn : nodeTypeName rc.2 with
        | error e => rw [htn] at h; exact absurd h (by simp)
        | ok tn =>
          rw [htn] at h
          simp only [Except.ok.injEq, Option.some.injEq, List.append_assoc] at h
          rw [show S " \x7b" = ' ' :: S "\x7b" from rfl, List.cons_append] at h
          exact append_cons_ne_self fieldName ' ' _ h
      · rw [if_neg h2] at h ⊢
        exact h

theorem printFieldsE_bare {ast : SchemaAst} (ft : List Char) :
    ∀ fs : List FieldDef,
      (∀ f ∈ fs, printField f.name f.type ast fragmentTypeDefault 1 = .ok (some f.name)) →
      printFieldsE ast ft fs = .ok (fs.map (fun f => some f.name)) := by
  intro fs
  induction fs with
  | nil => intro _; rfl
  | cons f fs ih =>
    intro hall
    rw [printFieldsE, printField_bare_all_modes (hall f (List.mem_cons_self f fs)) ft,
      ih (fun g hg => hall g (List.mem_cons_of_mem f hg)), List.map_cons]

/-- For a type whose every field prints as its bare name, the printable
field list is the field-name list, in every mode. -/
theorem generateFragments_bare {ast : SchemaAst} {t : TypeDef}
    (hall : ∀ f ∈ t.fields, printField f.name f.type ast fragmentTypeDefault 1 = .ok (some f.name))
    (ft : List Char) :
    generateFragments t ast ft = .ok (t.fields.map (fun f => f.name)) := by
  rw [generateFragments, printFieldsE_bare ft t.fields hall]
  simp only [Except.ok.injEq]
  induction t.fields with
  | nil => rfl
  | cons f fs ih => simp [List.filterMap_cons, ih]

theorem resolveTypeE_name {ast : SchemaAst} {n : List Char} {t : TypeDef}
    (h : resolveTypeE ast n = .ok t) : t.name = n := by
  unfold resolveTypeE at h
  cases hg : getType ast n with
  | none => rw [hg] at h; exact absurd h (by simp)
  | some u =>
    rw [hg] at h
    simp only [Except.ok.injEq] at h
    subst h
    have h2 := List.find?_some hg
    simpa using h2

theorem standardFragmentFor_name {ast : SchemaAst} {t : TypeDef} {f : Fragment}
    (h : standardFragmentFor ast t = .ok (some f)) : f.name = t.name := by
  unfold standardFragmentFor at h
  split at h
  · exact absurd h (by simp)
  · split at h
    · exact absurd h (by simp)
    · simp only [Except.ok.injEq, Option.some.injEq] at h
      subst h
      rfl

theorem noRelationsFragmentFor_name {ast : SchemaAst} {t : TypeDef} {f : Fragment}
    (h : noRelationsFragmentFor ast t = .ok (some f)) : f.name = t.name := by
  unfold noRelationsFragmentFor at h
  split at h
  · exact absurd h (by simp)
  · split at h
    · exact absurd h (by simp)
    · simp only [Except.ok.injEq, Option.some.injEq] at h
      subst h
      rfl

theorem standardFragmentsOf_names_sublist {ast : SchemaAst} :
    ∀ (tns : List (List Char)) (fr : List Fragment),
      standardFragmentsOf ast tns = .ok fr →
      List.Sublist (fr.map (fun f => f.name)) tns := by
  intro tns
  induction tns with
  | nil =>
    intro fr h
    simp only [standardFragmentsOf, Except.ok.injEq] at h
    subst h; simp
  | cons n rest ih =>
    intro fr h
    unfold standardFragmentsOf at h
    split at h
    · exact absurd h (by simp)
    · rename_i t hr
      split at h
      · exact absurd h (by simp)
      · rename_i fro hs
        split at h
        · exact absurd h (by simp)
        · rename_i others ho
          split at h
          · simp only [Except.ok.injEq] at h
            subst h
            exact List.Sublist.cons n (ih others ho)
          · rename_i f
            simp only [Except.ok.injEq] at h
            subst h
            simp only [List.map_cons]
            rw [standardFragmentFor_name hs, resolveTypeE_name hr]
            exact List.Sublist.cons₂ n (ih others ho)

theorem noRelationsFragmentsOf_names_sublist {ast : SchemaAst} :
    ∀ (tns : List (List Char)) (fr : List Fragment),
      noRelationsFragmentsOf ast tns = .ok fr →
      List.Sublist (fr.map (fun f => f.name)) tns := by
  intro tns
  induction tns with
  | nil =>
    intro fr h
    simp only [noRelationsFragmentsOf, Except.ok.injEq] at h
    subst h; simp
  | cons n rest ih =>
    intro fr h
    unfold noRelationsFragmentsOf at h
    split at h
    · exact absurd h (by simp)
    · rename_i t hr
      split at h
      · exact absurd h (by simp)
      · rename_i fro hs
        split at h
        · exact absurd h (by simp)
        · rename_i others ho
          split at h
          · simp only [Except.ok.injEq] at h
            subst h
            exact List.Sublist.cons n (ih others ho)
          · rename_i f
            simp only [Except.ok.injEq] at h
            subst h
            simp only [List.map_cons]
            rw [noRelationsFragmentFor_name hs, resolveTypeE_name hr]
            exact List.Sublist.cons₂ n (ih others ho)

/-- The fragment names a single type contributes to the deep pass: its tier
labels appended to its name when it has a tier-config entry, its name plus
`Full` otherwise. -/
theorem deepFragmentsFor_names {cfg : ModelConfigs} {mn : List (List Char)} {ast : SchemaAst}
    {t : TypeDef} {fs : List Fragment}
    (h : deepFragmentsFor cfg mn ast t = .ok (some fs)) :
    (∃ entry, lookupCfg cfg t.name = some entry ∧
      fs.map (fun f => f.name) = entry.map (fun p => t.name ++ p.1)) ∨
    (lookupCfg cfg t.name = none ∧ fs.map (fun f => f.name) = [t.name ++ S "Full"]) := by
  unfold deepFragmentsFor at h
  split at h
  · exact absurd h (by simp)
  · split at h
    · exact absurd h (by simp)
    · split at h
      · rename_i entry hlk
        simp only [Except.ok.injEq, Option.some.injEq] at h
        subst h
        exact Or.inl ⟨entry, hlk, by simp [List.map_map, Function.comp, tierFragment]⟩
      · rename_i hlk
        simp only [Except.ok.injEq, Option.some.injEq] at h
        subst h
        exact Or.inr ⟨hlk, by simp [fullFragment]⟩

theorem deepFragmentsFor_noDN {cfg : ModelConfigs} {mn : List (List Char)}
    {ast : SchemaAst} {t : TypeDef} {fs : List Fragment}
    (h : deepFragmentsFor cfg mn ast t = .ok (some fs)) :
    ∀ f ∈ fs, ¬ fragmentTypeDeep <:+: f.fragment := by
  intro f hf
  unfold deepFragmentsFor at h
  split at h
  · exact absurd h (by simp)
  · split at h
    · exact absurd h (by simp)
    · split at h
      · rename_i entry hlk
        simp only [Except.ok.injEq, Option.some.injEq] at h
        subst h
        obtain ⟨p, _, rfl⟩ := List.mem_map.mp hf
        exact deepRewrite_noDN mn p.1 _
      · simp only [Except.ok.injEq, Option.some.injEq] at h
        subst h
        simp only [List.mem_singleton] at hf
        subst hf
        exact noDN_replaceAll _

theorem deepFragmentsOf_noDN {cfg : ModelConfigs} {mn : List (List Char)} {ast : SchemaAst} :
    ∀ (tns : List (List Char)) (fr : List Fragment),
      deepFragmentsOf cfg mn ast tns = .ok fr →
      ∀ f ∈ fr, ¬ fragmentTypeDeep <:+: f.fragment := by
  intro tns
  induction tns with
  | nil =>
    intro fr h f hf
    simp only [deepFragmentsOf, Except.ok.injEq] at h
    subst h
    simp at hf
  | cons n rest ih =>
    intro fr h f hf
    unfold deepFragmentsOf at h
    split at h
    · exact absurd h (by simp)
    · split at h
      · exact absurd h (by simp)
      · rename_i fro hd
        split at h
        · exact absurd h (by simp)
        · rename_i others ho
          split at h
          · simp only [Except.ok.injEq] at h
            subst h
            exact ih others ho f hf
          · rename_i fs
            simp only [Except.ok.injEq] at h
            subst h
            rcases List.mem_append.mp hf with h1 | h2
            · exact deepFragmentsFor_noDN hd f h1
            · exact ih others ho f h2

theorem deepFragmentsOf_names_mem {cfg : ModelConfigs} {mn : List (List Char)} {ast : SchemaAst} :
    ∀ (tns : List (List Char)) (fr : List Fragment),
      deepFragmentsOf cfg mn ast tns = .ok fr →
      ∀ f ∈ fr, ∃ n ∈ tns, ∃ sfx, f.name = n ++ sfx ∧
        (sfx = S "Full" ∨ ∃ entry, lookupCfg cfg n = some entry ∧
          sfx ∈ entry.map (fun p => p.1)) := by
  intro tns
  induction tns with
  | nil =>
    intro fr h f hf
    simp only [deepFragmentsOf, Except.ok.injEq] at h
    subst h
    simp at hf
  | cons n rest ih =>
    intro fr h f hf
    unfold deepFragmentsOf at h
    split at h
    · exact absurd h (by simp)
    · rename_i t hr
      split at h
      · exact absurd h (by simp)
      · rename_i fro hd
        split at h
        · exact absurd h (by simp)
        · rename_i others ho
          split at h
          · simp only [Except.ok.injEq] at h
            subst h
            obtain ⟨n', hn', sfx, heq, hsfx⟩ := ih others ho f hf
            exact ⟨n', List.mem_cons_of_mem n hn', sfx, heq, hsfx⟩
          · rename_i fs
            simp only [Except.ok.injEq] at h
            subst h
            rcases List.mem_append.mp hf with h1 | h2
            · have hname : f.name ∈ fs.map (fun g => g.name) := List.mem_map_of_mem _ h1
              rcases deepFragmentsFor_names hd with ⟨entry, hlk, hmap⟩ | ⟨hlk, hmap⟩
              · rw [hmap] at hname
                obtain ⟨p, hp, hpe⟩ := List.mem_map.mp hname
                refine ⟨n, List.mem_cons_self n rest, p.1, ?_, Or.inr ⟨entry, ?_, ?_⟩⟩
                · rw [← hpe, resolveTypeE_name hr]
                · rw [← resolveTypeE_name hr]; exact hlk
                · exact List.mem_map_of_mem _ hp
              · rw [hmap] at hname
                simp only [List.mem_singleton] at hname
                refine ⟨n, List.mem_cons_self n rest, S "Full", ?_, Or.inl rfl⟩
                rw [hname, resolveTypeE_name hr]
            · obtain ⟨n', hn', sfx, heq, hsfx⟩ := ih others ho f h2
              exact ⟨n', List.mem_cons_of_mem n hn', sfx, heq, hsfx⟩

theorem deepFragmentsOf_names_nodup {cfg : ModelConfigs} {mn : List (List Char)}
    {ast : SchemaAst} :
    ∀ (tns : List (List Char)) (fr : List Fragment),
      deepFragmentsOf cfg mn ast tns = .ok fr →
      tns.Nodup →
      (∀ m ∈ tns, ∀ n ∈ tns, m <+: n → m = n) →
      (∀ n ∈ tns, ∀ entry ∈ (lookupCfg cfg n).toList, (entry.map (fun p => p.1)).Nodup) →
      (fr.map (fun f => f.name)).Nodup := by
  intro tns
  induction tns with
  | nil =>
    intro fr h _ _ _
    simp only [deepFragmentsOf, Except.ok.injEq] at h
    subst h
    simp
  | cons n rest ih =>
    intro fr h hnd hpf hlab
    unfold deepFragmentsOf at h
    split at h
    · exact absurd h (by simp)
    · rename_i t hr
      split at h
      · exact absurd h (by simp)
      · rename_i fro hd
        split at h
        · exact absurd h (by simp)
        · rename_i others ho
          have ihr : (others.map (fun f => f.name)).Nodup :=
            ih others ho (List.Nodup.of_cons hnd)
              (fun m hm n' hn' => hpf m (List.mem_cons_of_mem n hm) n' (List.mem_cons_of_mem n hn'))
              (fun n' hn' => hlab n' (List.mem_cons_of_mem n hn'))
          split at h
          · simp only [Except.ok.injEq] at h
            subst h
            exact ihr
          · rename_i fs
            simp only [Except.ok.injEq] at h
            subst h
            rw [List.map_append]
            rw [List.nodup_append]
            refine ⟨?_, ihr, ?_⟩
            · -- this type's own contribution has no duplicate
              rcases deepFragmentsFor_names hd with ⟨entry, hlk, hmap⟩ | ⟨_, hmap⟩
              · rw [hmap]
                have hlk' : entry ∈ (lookupCfg cfg n).toList := by
                  rw [resolveTypeE_name hr] at hlk
                  rw [hlk]; simp
                have hent : (entry.map (fun p => p.1)).Nodup :=
                  hlab n (List.mem_cons_self n rest) entry hlk'
                have : entry.map (fun p => t.name ++ p.1) =
                    (entry.map (fun p => p.1)).map (fun l => t.name ++ l) := by
                  simp [List.map_map, Function.comp]
                rw [this]
                exact hent.map (List.append_right_injective t.name)
              · rw [hmap]
                simp
            · -- disjoint from the later types' contributions
              intro x hx1 hx2
              obtain ⟨g, hg, hge⟩ := List.mem_map.mp hx2
              obtain ⟨n', hn', sfx2, heq2, _⟩ := deepFragmentsOf_names_mem rest others ho g hg
              have hx1' : ∃ sfx1, x = t.name ++ sfx1 := by
                rcases deepFragmentsFor_names hd with ⟨entry, _, hmap⟩ | ⟨_, hmap⟩
                · rw [hmap] at hx1
                  obtain ⟨p, _, hpe⟩ := List.mem_map.mp hx1
                  exact ⟨p.1, hpe.symm⟩
                · rw [hmap] at hx1
                  simp only [List.mem_singleton] at hx1
                  exact ⟨S "Full", hx1⟩
              obtain ⟨sfx1, rfl⟩ := hx1'
              have hpre1 : t.name <+: t.name ++ sfx1 := List.prefix_append t.name sfx1
              have hpre2 : n' <+: t.name ++ sfx1 := by
                have hxx : n' ++ sfx2 = t.name ++ sfx1 := by rw [← heq2, hge]
                rw [← hxx]
                exact List.prefix_append n' sfx2
              have htn : t.name = n := resolveTypeE_name hr
              have hmem1 : t.name ∈ n :: rest := by rw [htn]; exact List.mem_cons_self n rest
              have hmem2 : n' ∈ n :: rest := List.mem_cons_of_mem n hn'
              have heqn : t.name = n' := by
                rcases List.prefix_or_prefix_of_prefix hpre1 hpre2 with hp | hp
                · exact hpf t.name hmem1 n' hmem2 hp
                · exact (hpf n' hmem2 t.name hmem1 hp).symm
              rw [htn] at heqn
              rw [← heqn] at hn'
              exact (List.Nodup.not_mem hnd) hn'

/-- The `tierFragment` assembled by the source equals the specification's
assembly: the name is the type name plus the tier label, the leading
spread is the one §4.4 describes, and the retained fields are exactly the
deep fields whose leading identifier is allow-listed, in order. -/
theorem tierFragment_eq_spec (mn : List (List Char)) (name : List Char)
    (fields : List (List Char)) (p : List Char × List (List Char)) :
    tierFragment mn name fields p =
      { name := name ++ p.1
        fragment := deepRewrite mn p.1
          (tierBodySpec name p.1 (fields.filter (fun f => decide (headToken f ∈ p.2)))) } := by
  by_cases h1 : p.1 = S "Admin"
  · simp [tierFragment, tierBodySpec, leadingSpreadSpec, h1,
      (show ¬ (S "Admin" = S "AdminListing") by decide),
      (show ¬ (S "Admin" = S "Public") by decide),
      joinStr, List.append_assoc]
  · by_cases h2 : p.1 = S "AdminListing"
    · simp [tierFragment, tierBodySpec, leadingSpreadSpec, h2,
        (show ¬ (S "AdminListing" = S "Admin") by decide),
        (show ¬ (S "AdminListing" = S "Public") by decide),
        joinStr, List.append_assoc]
    · by_cases h3 : p.1 = S "Public"
      · simp [tierFragment, tierBodySpec, leadingSpreadSpec, h3,
          (show ¬ (S "Public" = S "Admin") by decide),
          (show ¬ (S "Public" = S "AdminListing") by decide),
          joinStr, List.append_assoc]
      · have hor : ¬ (p.1 = S "AdminListing" ∨ p.1 = S "Public") := by
          rintro (hx | hx)
          · exact h2 hx
          · exact h3 hx
        simp [tierFragment, tierBodySpec, leadingSpreadSpec, h1, h2, h3, hor, joinStr]

theorem noDN_joinFields (fields : List (List Char))
    (hfields : ∀ f ∈ fields, ¬ fragmentTypeDeep <:+: f) :
    ¬ fragmentTypeDeep <:+: joinStr (indentedLine 1) fields :=
  notInfix_joinStr fragmentTypeDeep (indentedLine 1) '\n' ' ' [' ', ' '] ['\n', ' ']
    rfl rfl (by decide) (by decide) (by decide) (by decide) fields hfields

theorem noDN_deepFullBody (name : List Char) (fields : List (List Char))
    (hname : ¬ fragmentTypeDeep <:+: name)
    (hfields : ∀ f ∈ fields, ¬ fragmentTypeDeep <:+: f) :
    ¬ fragmentTypeDeep <:+: S "fragment " ++ name ++ S "Full on " ++ name ++ S " \x7b\n  " ++
      joinStr (indentedLine 1) fields ++ S "\n\x7d" := by
  have hJ := noDN_joinFields fields hfields
  simp only [List.append_assoc]
  apply notInfix_append_endChar (S "fragment") rfl (by decide) (by decide)
  apply notInfix_append_startChar (S "ull on " ++ (name ++ (S " \x7b\n  " ++
    (joinStr (indentedLine 1) fields ++ S "\n\x7d")))) rfl (by decide) hname
  apply notInfix_append_endChar (S "Full on") rfl (by decide) (by decide)
  apply notInfix_append_startChar (S "\x7b\n  " ++
    (joinStr (indentedLine 1) fields ++ S "\n\x7d")) rfl (by decide) hname
  apply notInfix_append_endChar (S " \x7b\n ") rfl (by decide) (by decide)
  apply notInfix_append_startChar (S "\x7d") rfl (by decide) hJ
  decide

theorem standardFragmentFor_scalar {ast : SchemaAst} {t : TypeDef}
    (hne : t.fields ≠ [])
    (hbare : ∀ f ∈ t.fields,
      printField f.name f.type ast fragmentTypeDefault 1 = .ok (some f.name)) :
    standardFragmentFor ast t =
      .ok (some ⟨t.name, S "fragment " ++ t.name ++ scalarCore t ++ S "\n"⟩) := by
  have hlen : ¬ (t.fields.map (fun f => f.name)).length = 0 := by
    simp [List.length_eq_zero, hne]
  simp only [standardFragmentFor, generateFragments_bare hbare fragmentTypeDefault,
    if_neg hlen]
  simp [scalarCore, List.append_assoc, (show S "\n\x7d\n" = S "\n\x7d" ++ S "\n" from rfl)]

theorem noRelationsFragmentFor_scalar {ast : SchemaAst} {t : TypeDef}
    (hne : t.fields ≠ [])
    (hbare : ∀ f ∈ t.fields,
      printField f.name f.type ast fragmentTypeDefault 1 = .ok (some f.name)) :
    noRelationsFragmentFor ast t =
      .ok (some ⟨t.name, S "fragment " ++ t.name ++ S "NoNesting" ++ scalarCore t ++ S "\n"⟩) := by
  have hlen : ¬ (t.fields.map (fun f => f.name)).length = 0 := by
    simp [List.length_eq_zero, hne]
  simp only [noRelationsFragmentFor, generateFragments_bare hbare fragmentTypeNoRelations,
    if_neg hlen]
  simp [scalarCore, fragmentTypeNoRelations, List.append_assoc,
    (show S "\n\x7d\n" = S "\n\x7d" ++ S "\n" from rfl)]

theorem deepFragmentsFor_scalar {cfg : ModelConfigs} {mn : List (List Char)} {ast : SchemaAst}
    {t : TypeDef}
    (hne : t.fields ≠ [])
    (hbare : ∀ f ∈ t.fields,
      printField f.name f.type ast fragmentTypeDefault 1 = .ok (some f.name))
    (hcfg : lookupCfg cfg t.name = none)
    (hnameDN : ¬ fragmentTypeDeep <:+: t.name)
    (hfieldDN : ∀ f ∈ t.fields, ¬ fragmentTypeDeep <:+: f.name) :
    deepFragmentsFor cfg mn ast t =
      .ok (some [⟨t.name ++ S "Full", S "fragment " ++ t.name ++ S "Full" ++ scalarCore t⟩]) := by
  have hlen : ¬ (t.fields.map (fun f => f.name)).length = 0 := by
    simp [List.length_eq_zero, hne]
  have hbody : ¬ fragmentTypeDeep <:+: S "fragment " ++ t.name ++ S "Full on " ++ t.name ++
      S " \x7b\n  " ++ joinStr (indentedLine 1) (t.fields.map (fun f => f.name)) ++ S "\n\x7d" :=
    noDN_deepFullBody t.name (t.fields.map (fun f => f.name)) hnameDN
      (fun f hf => by
        obtain ⟨g, hg, rfl⟩ := List.mem_map.mp hf
        exact hfieldDN g hg)
  simp only [deepFragmentsFor, generateFragments_bare hbare fragmentTypeDeep, if_neg hlen,
    hcfg, fullFragment]
  rw [foldl_replaceAll_eq_self (S "PublicListing") hbody mn, replaceAll_eq_self hbody]
  simp [scalarCore, List.append_assoc, (show S "Full on " = S "Full" ++ S " on " from rfl)]

/-! ## Claims -/

theorem makeParts_none_isOk_false (ast : SchemaAst) : (makeParts ast none).isOk = false := by
  unfold makeParts
  split
  · rfl
  · split
    · rfl
    · split
      · rfl
      · split
        · rfl
        · rename_i k hk
          exact absurd hk (by simp [objectKeysE])

/-- Claim C1 (code_bug): the spec requires "no tier configuration file
supplied" to be a fully supported case ending in `<TypeName>Full`
fragments, but line 298 evaluates `Object.keys(modelConfigs)` before the
tier check, so with `modelConfigs` undefined `makeFragments` always
throws a `TypeError` and never completes, for every schema and every
generator. -/
theorem claim_c1_no_tier_config_throws (ast : SchemaAst) (generator : List Char) :
    (makeFragments ast generator none).isOk = false := by
  unfold makeFragments
  split
  · rfl
  · rename_i parts hp
    have h2 := makeParts_none_isOk_false ast
    rw [hp] at h2
    exact absurd h2 (by simp [Except.isOk, Except.toBool])

/-- Claim C2 (code_bug): a `[Comment!]!` field (list of non-null object
references) is dropped by `printField` in every mode — the `NonNull`
unwrap at lines 469-482 stops at the inner `ListType` with a null
constructor name — whereas a plain `Comment` field yields the
nested-spread block the claim describes; so the two do not classify
identically. -/
theorem claim_c2_list_nonnull_object_divergence :
    printField (S "comments") (.nonNull (.list (.nonNull (.named (S "Comment"))))) astComment
        fragmentTypeDeep 1 = .ok none ∧
    printField (S "comments") (.nonNull (.list (.nonNull (.named (S "Comment"))))) astComment
        fragmentTypeDefault 1 = .ok none ∧
    printField (S "comments") (.nonNull (.list (.nonNull (.named (S "Comment"))))) astComment
        fragmentTypeNoRelations 1 = .ok none ∧
    printField (S "comments") (.named (S "Comment")) astComment fragmentTypeDeep 1 =
      .ok (some (S "comments \x7b\n    ...CommentDeepNesting\n  \x7d")) ∧
    printField (S "comments") (.named (S "Comment")) astComment fragmentTypeDefault 1 =
      .ok (some (S "comments \x7b\n    ...CommentNoNesting\n  \x7d")) :=
  ⟨rfl, rfl, rfl, rfl, rfl⟩

/-- Claim C6: a generator value matching none of the three recognized
labels (`js`, `multi-file-graphql`, `graphql`) raises no error — the run
produces exactly what the single-document `graphql` generator produces,
the default fallback of the final `return` at lines 392-428. -/
theorem claim_c6_unrecognized_generator_single_doc (ast : SchemaAst)
    (modelConfigs : Option ModelConfigs) (generator : List Char)
    (h1 : generator ≠ S "js") (h2 : generator ≠ S "multi-file-graphql")
    (_h3 : generator ≠ S "graphql") :
    makeFragments ast generator modelConfigs = makeFragments ast (S "graphql") modelConfigs := by
  unfold makeFragments
  split
  · rfl
  · unfold renderOutput
    rw [if_neg h1, if_neg h2, if_neg (show ¬ S "graphql" = S "js" by decide),
      if_neg (show ¬ S "graphql" = S "multi-file-graphql" by decide)]

theorem claim_c6_witness :
    (S "bogus" ≠ S "js") ∧ (S "bogus" ≠ S "multi-file-graphql") ∧ (S "bogus" ≠ S "graphql") ∧
    makeFragments astPW (S "bogus") (some cfgPW) =
      makeFragments astPW (S "graphql") (some cfgPW) :=
  ⟨by decide, by decide, by decide,
    claim_c6_unrecognized_generator_single_doc astPW (some cfgPW) (S "bogus")
      (by decide) (by decide) (by decide)⟩

/-- Claim C7: for every object type and every fragment mode, when the
printable field list comes back empty the per-type builder returns the
`null` that the surrounding pass filters out, so no fragment is emitted
for that type and mode (lines 271, 286, 305). -/
theorem claim_c7_empty_fields_no_fragment (ast : SchemaAst) (t : TypeDef) (cfg : ModelConfigs)
    (modelNames : List (List Char)) :
    (generateFragments t ast fragmentTypeDefault = .ok [] →
      standardFragmentFor ast t = .ok none) ∧
    (generateFragments t ast fragmentTypeNoRelations = .ok [] →
      noRelationsFragmentFor ast t = .ok none) ∧
    (generateFragments t ast fragmentTypeDeep = .ok [] →
      deepFragmentsFor cfg modelNames ast t = .ok none) := by
  refine ⟨fun h => ?_, fun h => ?_, fun h => ?_⟩
  · simp [standardFragmentFor, h]
  · simp [noRelationsFragmentFor, h]
  · simp [deepFragmentsFor, h]

theorem claim_c7_witness :
    generateFragments holderT astIface fragmentTypeDefault = .ok [] ∧
    generateFragments holderT astIface fragmentTypeNoRelations = .ok [] ∧
    generateFragments holderT astIface fragmentTypeDeep = .ok [] ∧
    standardFragmentFor astIface holderT = .ok none ∧
    noRelationsFragmentFor astIface holderT = .ok none ∧
    deepFragmentsFor [] [] astIface holderT = .ok none :=
  ⟨rfl, rfl, rfl,
    (claim_c7_empty_fields_no_fragment astIface holderT [] []).1 rfl,
    (claim_c7_empty_fields_no_fragment astIface holderT [] []).2.1 rfl,
    (claim_c7_empty_fields_no_fragment astIface holderT [] []).2.2 rfl⟩

/-- Counterexample to claim C9 as stated: the query-root dereference sits
inside a `filter` callback (line 244), so a schema with no Query root and
no surviving object types completes successfully instead of failing. -/
theorem claim_c9_cex :
    astEnumOnly.queryName = none ∧
    (makeFragments astEnumOnly (S "graphql") (some [])).isOk = true := ⟨rfl, rfl⟩

/-- Claim C9 amended: for every schema that lacks a Query root type and
declares at least one non-introspection object type, the filter callback
dereferences `ast.getQueryType().name` on `undefined` and generation
fails instead of emitting fragments.  (As stated the claim is refuted by
`claim_c9_cex`: with zero surviving object types the callback never runs
and generation completes.) -/
theorem claim_c9_amended (ast : SchemaAst) (generator : List Char) (cfg : Option ModelConfigs)
    (hq : ast.queryName = none)
    (hobj : ∃ t ∈ ast.types, t.kind = TypeKind.object ∧ (S "__").isPrefixOf t.name = false) :
    (makeFragments ast generator cfg).isOk = false := by
  obtain ⟨t, ht, hk, hd⟩ := hobj
  have hmem : t.name ∈ visibleObjectNames ast := by
    apply List.mem_filter.mpr
    exact ⟨List.mem_map_of_mem _ (List.mem_filter.mpr ⟨ht, by simp [hk]⟩), by simp [hd]⟩
  obtain ⟨e, he⟩ : ∃ e, typeNamesOf ast = .error e := by
    unfold typeNamesOf
    rcases hv : visibleObjectNames ast with _ | ⟨v, vs⟩
    · rw [hv] at hmem; simp at hmem
    · rw [hq]
      exact ⟨_, rfl⟩
  unfold makeFragments makeParts
  rw [he]
  rfl

theorem claim_c9_witness :
    astNoQuery.queryName = none ∧
    (∃ t ∈ astNoQuery.types, t.kind = TypeKind.object ∧ (S "__").isPrefixOf t.name = false) ∧
    (makeFragments astNoQuery (S "graphql") (some [])).isOk = false :=
  ⟨rfl, by decide, claim_c9_amended astNoQuery (S "graphql") (some []) rfl (by decide)⟩

/-- Claim C10: `processFragments` picks the per-file branch only when the
fragment list is nonempty and its head is not named `*`; on the empty
list produced e.g. by the multi-file generator over a schema whose types
all yield zero deep fragments, the single-file branch reads
`fragments[0].fragment` on an empty array and generation fails with a
`TypeError` instead of writing an empty output (lines 197-205). -/
theorem claim_c10_empty_fragment_list_throws (outputPath extension : List Char)
    (ast : SchemaAst) (cfg : Option ModelConfigs) (frags : List Fragment)
    (_hmk : makeFragments ast (S "multi-file-graphql") cfg = .ok frags)
    (hempty : frags = []) :
    processFragmentsWrite outputPath extension frags =
      .error (S "TypeError: Cannot read properties of undefined (reading fragment)") := by
  subst hempty
  rfl

theorem claim_c10_witness :
    makeFragments astQueryOnly (S "multi-file-graphql") (some []) = .ok [] ∧
    processFragmentsWrite (S "out/frags.gql") (S "gql") [] =
      .error (S "TypeError: Cannot read properties of undefined (reading fragment)") :=
  ⟨rfl, claim_c10_empty_fragment_list_throws (S "out/frags.gql") (S "gql") astQueryOnly
    (some []) [] rfl rfl⟩

/-- Claim C3: for a type with a tier-config entry, one fragment per tier
label is emitted, in the config's declared order, named
`<TypeName><TierLabel>`; each body (before the rewrite pass) is the
spec's assembly: the leading sibling spread (`...<TypeName>AdminListing`
for `Admin`, `...<TypeName>PublicListing` for `AdminListing` and
`Public`, nothing otherwise) followed by exactly the deep fields whose
leading identifier is in that tier's allow-list, in the original
order. -/
theorem claim_c3_tier_fragments (cfg : ModelConfigs) (modelNames : List (List Char))
    (ast : SchemaAst) (t : TypeDef) (entry : ModelConfig) (fields : List (List Char))
    (hcfg : lookupCfg cfg t.name = some entry)
    (hf : generateFragments t ast fragmentTypeDeep = .ok fields)
    (hne : fields ≠ []) :
    deepFragmentsFor cfg modelNames ast t = .ok (some (entry.map (fun p =>
      { name := t.name ++ p.1
        fragment := deepRewrite modelNames p.1
          (tierBodySpec t.name p.1 (fields.filter (fun f =>
            decide (headToken f ∈ p.2)))) }))) := by
  have hlen : ¬ fields.length = 0 := by simp [List.length_eq_zero, hne]
  simp only [deepFragmentsFor, hf, if_neg hlen, hcfg]
  exact congrArg Except.ok (congrArg some
    (List.map_congr_left (fun p _ => tierFragment_eq_spec modelNames t.name fields p)))

theorem claim_c3_witness :
    lookupCfg cfgPW postT.name = some entryPW ∧
    generateFragments postT astPW fragmentTypeDeep = .ok fieldsPW ∧
    fieldsPW ≠ [] ∧
    deepFragmentsFor cfgPW [S "Post"] astPW postT = .ok (some (entryPW.map (fun p =>
      { name := postT.name ++ p.1
        fragment := deepRewrite [S "Post"] p.1
          (tierBodySpec postT.name p.1 (fieldsPW.filter (fun f =>
            decide (headToken f ∈ p.2)))) }))) :=
  ⟨rfl, rfl, by decide,
    claim_c3_tier_fragments cfgPW [S "Post"] astPW postT entryPW fieldsPW rfl rfl (by decide)⟩

/-- Claim C4: after tier expansion no emitted deep/tiered fragment body
contains the substring `DeepNesting`: both the tier branch and the
`Full` branch end with `.replace(/DeepNesting/g, 'Full')`, whose pattern
shares no character with its replacement. -/
theorem claim_c4_no_deep_nesting_left (cfg : ModelConfigs) (modelNames : List (List Char))
    (ast : SchemaAst) (tns : List (List Char)) (fr : List Fragment)
    (h : deepFragmentsOf cfg modelNames ast tns = .ok fr) (f : Fragment) (hf : f ∈ fr) :
    ¬ fragmentTypeDeep <:+: f.fragment :=
  deepFragmentsOf_noDN tns fr h f hf

theorem claim_c4_witness :
    deepFragmentsOf [(S "User", [(S "PublicListing", [S "id"])])] [S "User"] astPW
      [S "Post"] = .ok [fragC4] ∧
    ¬ fragmentTypeDeep <:+: fragC4.fragment :=
  ⟨rfl, claim_c4_no_deep_nesting_left [(S "User", [(S "PublicListing", [S "id"])])] [S "User"]
    astPW [S "Post"] [fragC4] rfl fragC4 (List.mem_singleton_self fragC4)⟩

/-- Counterexample to claim C5 as stated: for the all-scalar type `Post`,
the Default body ends with a trailing newline (line 277) while the
Deep-derived `Full` body does not (line 347), so the two bodies are not
textually identical aside from the name suffix in the header. -/
theorem claim_c5_cex :
    standardFragmentFor astP5 postT5 =
      .ok (some ⟨S "Post", S "fragment Post on Post \x7b\n  id\n\x7d\n"⟩) ∧
    deepFragmentsFor [] [] astP5 postT5 =
      .ok (some [⟨S "PostFull", S "fragment PostFull on Post \x7b\n  id\n\x7d"⟩]) ∧
    ¬ ∃ rest, S "fragment Post on Post \x7b\n  id\n\x7d\n" = S "fragment Post" ++ rest ∧
        S "fragment PostFull on Post \x7b\n  id\n\x7d" = S "fragment PostFull" ++ rest := by
  refine ⟨rfl, rfl, ?_⟩
  rintro ⟨rest, h1, h2⟩
  have h1' : S "fragment Post" ++ S " on Post \x7b\n  id\n\x7d\n" = S "fragment Post" ++ rest :=
    h1
  have h2' : S "fragment PostFull" ++ S " on Post \x7b\n  id\n\x7d" =
      S "fragment PostFull" ++ rest := h2
  have e1 := List.append_cancel_left h1'
  have e2 := List.append_cancel_left h2'
  exact absurd (e1.trans e2.symm) (by decide)

/-- Claim C5 amended: for an object type all of whose fields print as bare
names (scalar/enum classification), with no tier-config entry and no
`DeepNesting` occurrence inside the type or field names, the three
fragment bodies share one core after the fragment name — identical aside
from the name suffix (`""`, `NoNesting`, `Full`) — except that the
Default and NoRelations bodies end with a trailing newline which the
Deep-derived `Full` body lacks. -/
theorem claim_c5_amended (ast : SchemaAst) (t : TypeDef) (cfg : ModelConfigs)
    (modelNames : List (List Char))
    (hne : t.fields ≠ [])
    (hbare : ∀ f ∈ t.fields,
      printField f.name f.type ast fragmentTypeDefault 1 = .ok (some f.name))
    (hcfg : lookupCfg cfg t.name = none)
    (hnameDN : ¬ fragmentTypeDeep <:+: t.name)
    (hfieldDN : ∀ f ∈ t.fields, ¬ fragmentTypeDeep <:+: f.name) :
    standardFragmentFor ast t =
      .ok (some ⟨t.name, S "fragment " ++ t.name ++ scalarCore t ++ S "\n"⟩) ∧
    noRelationsFragmentFor ast t =
      .ok (some ⟨t.name, S "fragment " ++ t.name ++ S "NoNesting" ++ scalarCore t ++ S "\n"⟩) ∧
    deepFragmentsFor cfg modelNames ast t =
      .ok (some [⟨t.name ++ S "Full", S "fragment " ++ t.name ++ S "Full" ++ scalarCore t⟩]) :=
  ⟨standardFragmentFor_scalar hne hbare, noRelationsFragmentFor_scalar hne hbare,
   deepFragmentsFor_scalar hne hbare hcfg hnameDN hfieldDN⟩

theorem claim_c5_witness :
    (postT5.fields ≠ []) ∧ (lookupCfg [] postT5.name = none) ∧
    (standardFragmentFor astP5 postT5 =
      .ok (some ⟨postT5.name, S "fragment " ++ postT5.name ++ scalarCore postT5 ++ S "\n"⟩) ∧
    noRelationsFragmentFor astP5 postT5 =
      .ok (some ⟨postT5.name,
        S "fragment " ++ postT5.name ++ S "NoNesting" ++ scalarCore postT5 ++ S "\n"⟩) ∧
    deepFragmentsFor [] [] astP5 postT5 =
      .ok (some [⟨postT5.name ++ S "Full",
        S "fragment " ++ postT5.name ++ S "Full" ++ scalarCore postT5⟩])) :=
  ⟨by decide, rfl,
    claim_c5_amended astP5 postT5 [] [] (by decide)
      (by
        intro f hf
        simp only [postT5, List.mem_singleton] at hf
        subst hf
        rfl)
      rfl (by decide)
      (by
        intro f hf
        simp only [postT5, List.mem_singleton] at hf
        subst hf
        decide)⟩

/-- Counterexample to claim C8 as stated: a schema declaring both `Post`
and `PostFull` emits the definition name `PostFull` twice — once as the
standard fragment of type `PostFull`, once as the deep fragment of type
`Post`. -/
theorem claim_c8_cex :
    allFragmentDefNames astC8 (some []) = .ok
      [S "Post", S "PostFull", S "PostNoNesting", S "PostFullNoNesting",
       S "PostFull", S "PostFullFull"] ∧
    ¬ ([S "Post", S "PostFull", S "PostNoNesting", S "PostFullNoNesting",
       S "PostFull", S "PostFullFull"] : List (List Char)).Nodup := ⟨rfl, by decide⟩

/-- Claim C8 amended: the fragment definition names emitted in one run
(bare type name, type name plus `NoNesting`, type name plus `Full` or a
tier label) are pairwise distinct provided no emitted type name is a
strict prefix of another and every tier label is nonempty and differs
from `NoNesting`.  (As stated the claim is refuted by `claim_c8_cex`:
with types `Post` and `PostFull` the name `PostFull` is emitted
twice.) -/
theorem claim_c8_amended (ast : SchemaAst) (cfg : ModelConfigs) (names : List (List Char))
    (tns : List (List Char))
    (htns : typeNamesOf ast = .ok tns)
    (h : allFragmentDefNames ast (some cfg) = .ok names)
    (hnd : tns.Nodup)
    (hpf : ∀ m ∈ tns, ∀ n ∈ tns, m <+: n → m = n)
    (hlab : ∀ n ∈ tns, ∀ entry ∈ (lookupCfg cfg n).toList,
      (entry.map (fun p => p.1)).Nodup ∧
      ∀ l ∈ entry.map (fun p => p.1), l ≠ [] ∧ l ≠ fragmentTypeNoRelations) :
    names.Nodup := by
  unfold allFragmentDefNames at h
  split at h
  · exact absurd h (by simp)
  · rename_i parts hparts
    simp only [Except.ok.injEq] at h
    subst h
    unfold makeParts at hparts
    rw [htns] at hparts
    dsimp only at hparts
    split at hparts
    · exact absurd hparts (by simp)
    · rename_i sF hS
      split at hparts
      · exact absurd hparts (by simp)
      · rename_i nF hN
        split at hparts
        · exact absurd hparts (by simp)
        · rename_i mn hK
          split at hparts
          · exact absurd hparts (by simp)
          · rename_i dF hD
            simp only [Except.ok.injEq] at hparts
            subst hparts
            dsimp only
            have hD' : deepFragmentsOf cfg mn ast tns = .ok dF := by simpa using hD
            have hsub1 := standardFragmentsOf_names_sublist tns sF hS
            have hsub2 := noRelationsFragmentsOf_names_sublist tns nF hN
            have hnod1 : (sF.map (fun f => f.name)).Nodup := List.Nodup.sublist hsub1 hnd
            have hnodN : (nF.map (fun f => f.name)).Nodup := List.Nodup.sublist hsub2 hnd
            have hnod2 : (nF.map (fun f => f.name ++ fragmentTypeNoRelations)).Nodup := by
              have hmm : nF.map (fun f => f.name ++ fragmentTypeNoRelations) =
                  (nF.map (fun f => f.name)).map (fun s => s ++ fragmentTypeNoRelations) := by
                simp [List.map_map, Function.comp]
              rw [hmm]
              exact hnodN.map (List.append_left_injective fragmentTypeNoRelations)
            have hnod3 : (dF.map (fun f => f.name)).Nodup :=
              deepFragmentsOf_names_nodup tns dF hD' hnd hpf
                (fun n hn entry he => (hlab n hn entry he).1)
            have hdmem : ∀ x ∈ dF.map (fun f => f.name), ∃ n ∈ tns, ∃ sfx,
                x = n ++ sfx ∧ sfx ≠ [] ∧ sfx ≠ fragmentTypeNoRelations := by
              intro x hx
              obtain ⟨g, hg, rfl⟩ := List.mem_map.mp hx
              obtain ⟨n, hn, sfx, heq, hcase⟩ := deepFragmentsOf_names_mem tns dF hD' g hg
              refine ⟨n, hn, sfx, heq, ?_⟩
              rcases hcase with rfl | ⟨entry, hlk, hmem⟩
              · exact ⟨by decide, by decide⟩
              · exact (hlab n hn entry (by rw [hlk]; simp)).2 sfx hmem
            have hcomp : ∀ y ∈ tns, ∀ n ∈ tns, ∀ u v : List Char,
                y ++ u = n ++ v → y = n := by
              intro y hy n hn u v huv
              have hp1 : y <+: n ++ v := by rw [← huv]; exact List.prefix_append y u
              have hp2 : n <+: n ++ v := List.prefix_append n v
              rcases List.prefix_or_prefix_of_prefix hp1 hp2 with hp | hp
              · exact hpf y hy n hn hp
              · exact (hpf n hn y hy hp).symm
            have hdisj_sn : (sF.map (fun f => f.name)).Disjoint
                (nF.map (fun f => f.name ++ fragmentTypeNoRelations)) := by
              intro x hx1 hx2
              obtain ⟨g, hg, rfl⟩ := List.mem_map.mp hx2
              have hgn : g.name ∈ tns := hsub2.subset (List.mem_map_of_mem _ hg)
              have hxn : g.name ++ fragmentTypeNoRelations ∈ tns := hsub1.subset hx1
              have heq := hpf g.name hgn (g.name ++ fragmentTypeNoRelations) hxn
                (List.prefix_append _ _)
              have hnil : fragmentTypeNoRelations = ([] : List Char) := by
                have h0 : g.name ++ fragmentTypeNoRelations = g.name ++ [] := by
                  rw [List.append_nil]
                  exact heq.symm
                exact List.append_cancel_left h0
              exact absurd hnil (by decide)
            have hdisj_sd : (sF.map (fun f => f.name)).Disjoint
                (dF.map (fun f => f.name)) := by
              intro x hx1 hx2
              have hxn : x ∈ tns := hsub1.subset hx1
              obtain ⟨n, hn, sfx, rfl, hsfx1, _⟩ := hdmem x hx2
              have heq := hpf n hn (n ++ sfx) hxn (List.prefix_append n sfx)
              have hnil : sfx = ([] : List Char) := by
                have h0 : n ++ sfx = n ++ [] := by
                  rw [List.append_nil]
                  exact heq.symm
                exact List.append_cancel_left h0
              exact hsfx1 hnil
            have hdisj_nd : (nF.map (fun f => f.name ++ fragmentTypeNoRelations)).Disjoint
                (dF.map (fun f => f.name)) := by
              intro x hx1 hx2
              obtain ⟨g, hg, rfl⟩ := List.mem_map.mp hx1
              have hgn : g.name ∈ tns := hsub2.subset (List.mem_map_of_mem _ hg)
              obtain ⟨n, hn, sfx, heq, _, hsfx2⟩ := hdmem _ hx2
              have hyn := hcomp g.name hgn n hn fragmentTypeNoRelations sfx heq
              rw [hyn] at heq
              exact hsfx2 (List.append_cancel_left heq).symm
            refine List.nodup_append.mpr
              ⟨List.nodup_append.mpr ⟨hnod1, hnod2, hdisj_sn⟩, hnod3, ?_⟩
            intro x hx1 hx2
            rcases List.mem_append.mp hx1 with hxa | hxb
            · exact hdisj_sd hxa hx2
            · exact hdisj_nd hxb hx2

theorem claim_c8_witness :
    typeNamesOf astPW = .ok [S "Post", S "User"] ∧
    allFragmentDefNames astPW (some cfgPW) = .ok
      [S "Post", S "User", S "PostNoNesting", S "UserNoNesting",
       S "PostPublicListing", S "PostPublic", S "UserFull"] ∧
    ([S "Post", S "User", S "PostNoNesting", S "UserNoNesting",
      S "PostPublicListing", S "PostPublic", S "UserFull"] : List (List Char)).Nodup :=
  ⟨rfl, rfl,
    claim_c8_amended astPW cfgPW _ [S "Post", S "User"] rfl rfl
      (by decide) (by decide) (by decide)⟩
